import Mathlib

/-!
Verification of the frame-delta compression pipeline of `bad-apple-asm`.

The definitions below are a shallow embedding of the Python sources
(`analyze_masks.py`, `emit_segments.py`, `emit_bitpacked.py`,
`process_frames.py`).  A pixel set is a `Finset ℕ` of linear indices
`y * w + x`; shifts are `ℤ`; machine integers are `ℕ`/`ℤ`.
-/

namespace BadApple

/-- Rows occupied by a pixel set: `idx // w` for each index.  Models the
row bucketing of `best_horizontal_shift` (analyze_masks.py lines 35-44,
which builds a dict from row number to the set of columns in that row). -/
def rowsOf (s : Finset ℕ) (w : ℕ) : Finset ℕ := s.image (fun i => i / w)

/-- Column set of row `y` of a pixel set: `idx % w` for every `idx` with
`idx // w = y`, as integers so that shifted columns may go negative. -/
def rowCols (s : Finset ℕ) (w y : ℕ) : Finset ℤ :=
  (s.filter (fun i => i / w = y)).image (fun i => ((i % w : ℕ) : ℤ))

/-- The set comprehension `{x - dx for x in cur_xs if 0 <= x - dx < w}`
(analyze_masks.py line 53). -/
def shiftedCols (xs : Finset ℤ) (dx : ℤ) (w : ℕ) : Finset ℤ :=
  (xs.filter (fun x => 0 ≤ x - dx ∧ x - dx < (w : ℤ))).image (fun x => x - dx)

/-- Total row-wise overlap of `prev_set` with `cur_set` shifted by `-dx`:
the body of the `for dx` loop (analyze_masks.py lines 47-54).  Rows absent
from `prev` contribute an empty intersection, exactly as the `continue`. -/
def overlapAt (prev cur : Finset ℕ) (w : ℕ) (dx : ℤ) : ℕ :=
  ∑ y ∈ rowsOf cur w, (shiftedCols (rowCols cur w y) dx w ∩ rowCols prev w y).card

/-- The ascending candidate list `range(-max_shift, max_shift + 1)`
(analyze_masks.py line 46). -/
def scanRange (k : ℕ) : List ℤ :=
  (List.range (2 * k + 1)).map (fun i : ℕ => (i : ℤ) - (k : ℤ))

/-- One step of the scan: update `(best_dx, best_overlap)` only on strict
improvement (analyze_masks.py lines 55-57). -/
def bestStep (g : ℤ → ℕ) (best : ℤ × ℕ) (dx : ℤ) : ℤ × ℕ :=
  if best.2 < g dx then (dx, g dx) else best

/-- Embedding of `best_horizontal_shift` (analyze_masks.py lines 30-58; the
identical copy in emit_segments.py lines 43-68 is used with `max_shift = 64`).
`best_dx` and `best_overlap` start at `0`. -/
def best_horizontal_shift (prev cur : Finset ℕ) (w : ℕ) (max_shift : ℕ) : ℤ × ℕ :=
  (scanRange max_shift).foldl (bestStep (overlapAt prev cur w)) (0, 0)

lemma bestStep_snd_le (g : ℤ → ℕ) (best : ℤ × ℕ) (dx : ℤ) :
    best.2 ≤ (bestStep g best dx).2 := by
  unfold bestStep
  split
  · next h => exact le_of_lt h
  · exact le_refl _

lemma bestStep_ge (g : ℤ → ℕ) (best : ℤ × ℕ) (dx : ℤ) :
    g dx ≤ (bestStep g best dx).2 := by
  unfold bestStep
  split
  · exact le_refl _
  · next h => exact le_of_not_lt h

lemma foldl_bestStep_mono (g : ℤ → ℕ) :
    ∀ (l : List ℤ) (acc : ℤ × ℕ), acc.2 ≤ (l.foldl (bestStep g) acc).2 := by
  intro l
  induction l with
  | nil => intro acc; exact le_refl _
  | cons d t ih =>
    intro acc
    simp only [List.foldl_cons]
    exact le_trans (bestStep_snd_le g acc d) (ih (bestStep g acc d))

lemma foldl_bestStep_ge (g : ℤ → ℕ) :
    ∀ (l : List ℤ) (acc : ℤ × ℕ) (dx : ℤ), dx ∈ l →
      g dx ≤ (l.foldl (bestStep g) acc).2 := by
  intro l
  induction l with
  | nil => intro acc dx h; exact absurd h (List.not_mem_nil dx)
  | cons d t ih =>
    intro acc dx h
    simp only [List.foldl_cons]
    rcases List.mem_cons.mp h with rfl | h2
    · exact le_trans (bestStep_ge g acc dx) (foldl_bestStep_mono g t (bestStep g acc dx))
    · exact ih (bestStep g acc d) dx h2

lemma foldl_bestStep_cases (g : ℤ → ℕ) :
    ∀ (l : List ℤ) (acc : ℤ × ℕ),
      l.foldl (bestStep g) acc = acc ∨
      ((l.foldl (bestStep g) acc).1 ∈ l ∧
        g (l.foldl (bestStep g) acc).1 = (l.foldl (bestStep g) acc).2 ∧
        acc.2 < (l.foldl (bestStep g) acc).2) := by
  intro l
  induction l with
  | nil => intro acc; left; rfl
  | cons d t ih =>
    intro acc
    simp only [List.foldl_cons]
    by_cases h : acc.2 < g d
    · have hstep : bestStep g acc d = (d, g d) := by unfold bestStep; rw [if_pos h]
      rw [hstep]
      rcases ih (d, g d) with h2 | h2
      · right
        rw [h2]
        exact ⟨List.mem_cons_self d t, rfl, h⟩
      · right
        exact ⟨List.mem_cons_of_mem d h2.1, h2.2.1, lt_trans h h2.2.2⟩
    · have hstep : bestStep g acc d = acc := by unfold bestStep; rw [if_neg h]
      rw [hstep]
      rcases ih acc with h2 | h2
      · left; exact h2
      · right
        exact ⟨List.mem_cons_of_mem d h2.1, h2.2⟩

lemma foldl_bestStep_first (g : ℤ → ℕ) :
    ∀ (l : List ℤ), l.Pairwise (· < ·) → ∀ (acc : ℤ × ℕ),
      l.foldl (bestStep g) acc = acc ∨
      ∀ dx ∈ l, dx < (l.foldl (bestStep g) acc).1 →
        g dx < (l.foldl (bestStep g) acc).2 := by
  intro l
  induction l with
  | nil => intro _ acc; left; rfl
  | cons d t ih =>
    intro hp acc
    have hpt : t.Pairwise (· < ·) := (List.pairwise_cons.mp hp).2
    have hdlt : ∀ x ∈ t, d < x := (List.pairwise_cons.mp hp).1
    simp only [List.foldl_cons]
    by_cases h : acc.2 < g d
    · have hstep : bestStep g acc d = (d, g d) := by unfold bestStep; rw [if_pos h]
      rw [hstep]
      right
      intro dx hdx hlt
      rcases List.mem_cons.mp hdx with rfl | hdx2
      · rcases foldl_bestStep_cases g t (dx, g dx) with h2 | h2
        · rw [h2] at hlt
          exact absurd hlt (lt_irrefl dx)
        · exact h2.2.2
      · rcases ih hpt (d, g d) with h2 | h2
        · rw [h2] at hlt
          exact absurd hlt (not_lt.mpr (le_of_lt (hdlt dx hdx2)))
        · exact h2 dx hdx2 hlt
    · have hstep : bestStep g acc d = acc := by unfold bestStep; rw [if_neg h]
      rw [hstep]
      rcases foldl_bestStep_cases g t acc with h3 | h3
      · left; exact h3
      · right
        intro dx hdx hlt
        rcases List.mem_cons.mp hdx with rfl | hdx2
        · exact lt_of_le_of_lt (not_lt.mp h) h3.2.2
        · rcases ih hpt acc with h2 | h2
          · rw [h2] at h3
            exact absurd h3.2.2 (lt_irrefl acc.2)
          · exact h2 dx hdx2 hlt

lemma foldl_bestStep_le (g : ℤ → ℕ) (B : ℕ) (hg : ∀ dx, g dx ≤ B) :
    ∀ (l : List ℤ) (acc : ℤ × ℕ), acc.2 ≤ B → (l.foldl (bestStep g) acc).2 ≤ B := by
  intro l
  induction l with
  | nil => intro acc h; exact h
  | cons d t ih =>
    intro acc h
    simp only [List.foldl_cons]
    apply ih
    unfold bestStep
    split
    · exact hg d
    · exact h

lemma foldl_bestStep_zero (g : ℤ → ℕ) :
    ∀ (l : List ℤ), (∀ dx ∈ l, g dx = 0) → l.foldl (bestStep g) (0, 0) = (0, 0) := by
  intro l
  induction l with
  | nil => intro _; rfl
  | cons d t ih =>
    intro hl
    simp only [List.foldl_cons]
    have hd : g d = 0 := hl d (List.mem_cons_self d t)
    have hstep : bestStep g (0, 0) d = (0, 0) := by
      unfold bestStep
      rw [hd]
      simp
    rw [hstep]
    exact ih (fun dx hdx => hl dx (List.mem_cons_of_mem d hdx))

lemma mem_scanRange (k : ℕ) (dx : ℤ) :
    dx ∈ scanRange k ↔ -(k : ℤ) ≤ dx ∧ dx ≤ (k : ℤ) := by
  unfold scanRange
  constructor
  · intro h
    rcases List.mem_map.mp h with ⟨i, hi, heq⟩
    rw [List.mem_range] at hi
    omega
  · intro h
    refine List.mem_map.mpr ⟨(dx + (k : ℤ)).toNat, ?_, ?_⟩
    · rw [List.mem_range]
      omega
    · omega

lemma scanRange_pairwise (k : ℕ) : (scanRange k).Pairwise (· < ·) := by
  unfold scanRange
  rw [List.pairwise_map]
  exact (List.pairwise_lt_range (2 * k + 1)).imp (by intro a b hab; omega)

lemma overlapAt_prev_empty (cur : Finset ℕ) (w : ℕ) (dx : ℤ) :
    overlapAt ∅ cur w dx = 0 := by
  unfold overlapAt rowCols
  simp

lemma overlapAt_cur_empty (prev : Finset ℕ) (w : ℕ) (dx : ℤ) :
    overlapAt prev ∅ w dx = 0 := by
  unfold overlapAt rowsOf
  simp

/-- C3: for any two pixel sets, any width, and any `max_shift = k ≥ 0`,
`best_horizontal_shift` returns a displacement `dx` with `|dx| ≤ k`, is a
pure function (re-running on the same inputs gives the same pair), and
returns `(0, 0)` when either input set is empty. -/
theorem C3_shift_bound_deterministic (prev cur : Finset ℕ) (w k : ℕ) :
    (best_horizontal_shift prev cur w k).1.natAbs ≤ k ∧
    best_horizontal_shift prev cur w k = best_horizontal_shift prev cur w k ∧
    (prev = ∅ → best_horizontal_shift prev cur w k = (0, 0)) ∧
    (cur = ∅ → best_horizontal_shift prev cur w k = (0, 0)) := by
  have hbhs : best_horizontal_shift prev cur w k =
      (scanRange k).foldl (bestStep (overlapAt prev cur w)) (0, 0) := rfl
  refine ⟨?_, rfl, ?_, ?_⟩
  · rcases foldl_bestStep_cases (overlapAt prev cur w) (scanRange k) (0, 0) with h | h
    · rw [hbhs, h]
      simp
    · have hm := (mem_scanRange k _).mp h.1
      rw [hbhs]
      omega
  · intro hprev
    subst hprev
    rw [hbhs]
    exact foldl_bestStep_zero _ _ (fun dx _ => overlapAt_prev_empty cur w dx)
  · intro hcur
    subst hcur
    rw [hbhs]
    exact foldl_bestStep_zero _ _ (fun dx _ => overlapAt_cur_empty prev w dx)

theorem C3_witness :
    best_horizontal_shift ∅ {0} 4 2 = (0, 0) ∧
    best_horizontal_shift {0, 1} ∅ 4 2 = (0, 0) :=
  ⟨(C3_shift_bound_deterministic ∅ {0} 4 2).2.2.1 rfl,
   (C3_shift_bound_deterministic {0, 1} ∅ 4 2).2.2.2 rfl⟩

/-- C2 counterexample: on the spec's concrete scenario (reference `{1,2}`,
target `{2,3}`, width 4, `max_shift = 2`) the shift search does not return
`dx = -1` with overlap 2. -/
theorem C2_counterexample :
    best_horizontal_shift {1, 2} {2, 3} 4 2 ≠ (-1, 2) := by decide

/-- C2 amended: on reference `{1,2}`, target `{2,3}`, width 4, `max_shift = 2`
the shift search returns `dx = 1` with overlap 2 (under the code's sign
convention, `dx = 1` means the target is displaced one column to the right
of the reference, so replay shifts the target left by one to align). -/
theorem C2_amended : best_horizontal_shift {1, 2} {2, 3} 4 2 = (1, 2) := by decide

/-- C4: the scan over `[-k, k]` proceeds in ascending order, starts from
`(best_dx, best_overlap) = (0, 0)` and updates only on strict improvement:
the returned overlap dominates every candidate displacement, a positive
returned overlap is achieved at the returned displacement and every smaller
displacement in range achieves strictly less (first achiever in ascending
order wins ties), and a zero overlap leaves `best_dx` at its initial 0. -/
theorem C4_tie_break (prev cur : Finset ℕ) (w k : ℕ) :
    (∀ dx : ℤ, -(k : ℤ) ≤ dx → dx ≤ (k : ℤ) →
      overlapAt prev cur w dx ≤ (best_horizontal_shift prev cur w k).2) ∧
    (0 < (best_horizontal_shift prev cur w k).2 →
      overlapAt prev cur w (best_horizontal_shift prev cur w k).1 =
        (best_horizontal_shift prev cur w k).2 ∧
      ∀ dx : ℤ, -(k : ℤ) ≤ dx → dx < (best_horizontal_shift prev cur w k).1 →
        overlapAt prev cur w dx < (best_horizontal_shift prev cur w k).2) ∧
    ((best_horizontal_shift prev cur w k).2 = 0 →
      (best_horizontal_shift prev cur w k).1 = 0) := by
  have hbhs : best_horizontal_shift prev cur w k =
      (scanRange k).foldl (bestStep (overlapAt prev cur w)) (0, 0) := rfl
  refine ⟨?_, ?_, ?_⟩
  · intro dx h1 h2
    rw [hbhs]
    exact foldl_bestStep_ge _ _ _ dx ((mem_scanRange k dx).mpr ⟨h1, h2⟩)
  · intro hpos
    rcases foldl_bestStep_cases (overlapAt prev cur w) (scanRange k) (0, 0) with h | h
    · rw [hbhs, h] at hpos
      exact absurd hpos (lt_irrefl 0)
    · have hr1 := (mem_scanRange k _).mp h.1
      refine ⟨by rw [hbhs]; exact h.2.1, ?_⟩
      intro dx h1 h2
      rcases foldl_bestStep_first (overlapAt prev cur w) (scanRange k)
          (scanRange_pairwise k) (0, 0) with h3 | h3
      · rw [hbhs, h3] at hpos
        exact absurd hpos (lt_irrefl 0)
      · rw [hbhs] at h2 ⊢
        have hdxk : dx ≤ (k : ℤ) := by omega
        exact h3 dx ((mem_scanRange k dx).mpr ⟨h1, hdxk⟩) h2
  · intro hzero
    rcases foldl_bestStep_cases (overlapAt prev cur w) (scanRange k) (0, 0) with h | h
    · rw [hbhs, h]
    · rw [hbhs] at hzero
      rw [hzero] at h
      exact absurd h.2.2 (by omega)

theorem C4_witness :
    overlapAt {1, 2} {2, 3} 4 0 ≤ (best_horizontal_shift {1, 2} {2, 3} 4 2).2 ∧
    overlapAt {1, 2} {2, 3} 4 0 < (best_horizontal_shift {1, 2} {2, 3} 4 2).2 :=
  ⟨(C4_tie_break {1, 2} {2, 3} 4 2).1 0 (by decide) (by decide),
   ((C4_tie_break {1, 2} {2, 3} 4 2).2.1 (by decide)).2 0 (by decide) (by decide)⟩

lemma rowCols_card_le (s : Finset ℕ) (w y : ℕ) :
    (rowCols s w y).card ≤ (s.filter (fun i => i / w = y)).card :=
  Finset.card_image_le

lemma sum_filter_row_card_le (s : Finset ℕ) (w : ℕ) (S : Finset ℕ) :
    ∑ y ∈ S, (s.filter (fun i => i / w = y)).card ≤ s.card := by
  classical
  have hdisj : ∀ y1 ∈ S, ∀ y2 ∈ S, y1 ≠ y2 →
      Disjoint (s.filter (fun i => i / w = y1)) (s.filter (fun i => i / w = y2)) := by
    intro y1 _ y2 _ hne
    refine Finset.disjoint_left.mpr ?_
    intro a ha1 ha2
    rw [Finset.mem_filter] at ha1 ha2
    exact hne (ha1.2.symm.trans ha2.2)
  calc ∑ y ∈ S, (s.filter (fun i => i / w = y)).card
      = (S.biUnion (fun y => s.filter (fun i => i / w = y))).card :=
        (Finset.card_biUnion hdisj).symm
    _ ≤ s.card := by
        apply Finset.card_le_card
        intro a ha
        rw [Finset.mem_biUnion] at ha
        rcases ha with ⟨y, _, hy⟩
        exact (Finset.mem_filter.mp hy).1

lemma overlapAt_le_prev (prev cur : Finset ℕ) (w : ℕ) (dx : ℤ) :
    overlapAt prev cur w dx ≤ prev.card := by
  unfold overlapAt
  calc ∑ y ∈ rowsOf cur w, (shiftedCols (rowCols cur w y) dx w ∩ rowCols prev w y).card
      ≤ ∑ y ∈ rowsOf cur w, (prev.filter (fun i => i / w = y)).card := by
        apply Finset.sum_le_sum
        intro y _
        exact le_trans (Finset.card_le_card Finset.inter_subset_right) (rowCols_card_le prev w y)
    _ ≤ prev.card := sum_filter_row_card_le prev w (rowsOf cur w)

lemma overlapAt_le_cur (prev cur : Finset ℕ) (w : ℕ) (dx : ℤ) :
    overlapAt prev cur w dx ≤ cur.card := by
  unfold overlapAt
  calc ∑ y ∈ rowsOf cur w, (shiftedCols (rowCols cur w y) dx w ∩ rowCols prev w y).card
      ≤ ∑ y ∈ rowsOf cur w, (cur.filter (fun i => i / w = y)).card := by
        apply Finset.sum_le_sum
        intro y _
        refine le_trans (Finset.card_le_card Finset.inter_subset_left) ?_
        unfold shiftedCols
        refine le_trans Finset.card_image_le ?_
        exact le_trans (Finset.card_le_card (Finset.filter_subset _ _)) (rowCols_card_le cur w y)
    _ ≤ cur.card := sum_filter_row_card_le cur w (rowsOf cur w)

/-- The expression `overlap_frac = best_overlap / max(1, max(len(prev_set),
len(cur_set)))` from analyze_masks.py line 86; the shift search there is
invoked with `max_shift = 32`.  Python float division is modelled in `ℚ`. -/
def overlap_frac (prev cur : Finset ℕ) (w : ℕ) : ℚ :=
  ((best_horizontal_shift prev cur w 32).2 : ℚ) /
    ((max 1 (max prev.card cur.card) : ℕ) : ℚ)

lemma best_overlap_le_min (prev cur : Finset ℕ) (w k : ℕ) :
    (best_horizontal_shift prev cur w k).2 ≤ min prev.card cur.card := by
  have hbhs : best_horizontal_shift prev cur w k =
      (scanRange k).foldl (bestStep (overlapAt prev cur w)) (0, 0) := rfl
  rw [hbhs]
  refine foldl_bestStep_le _ _ ?_ _ _ (Nat.zero_le _)
  intro dx
  exact le_min (overlapAt_le_prev prev cur w dx) (overlapAt_le_cur prev cur w dx)

/-- C10: the overlap returned by `best_horizontal_shift` is at most
`min |prev| |cur|`; consequently the analyzer's `overlap_frac`
(best overlap over `max 1 (max |prev| |cur|)`) lies in `[0, 1]`. -/
theorem C10_overlap_bounds (prev cur : Finset ℕ) (w k : ℕ) :
    (best_horizontal_shift prev cur w k).2 ≤ min prev.card cur.card ∧
    0 ≤ overlap_frac prev cur w ∧ overlap_frac prev cur w ≤ 1 := by
  refine ⟨best_overlap_le_min prev cur w k, ?_, ?_⟩
  · unfold overlap_frac
    apply div_nonneg
    · exact Nat.cast_nonneg _
    · exact Nat.cast_nonneg _
  · unfold overlap_frac
    have hden : (0 : ℚ) < ((max 1 (max prev.card cur.card) : ℕ) : ℚ) := by
      have : (1 : ℕ) ≤ max 1 (max prev.card cur.card) := le_max_left _ _
      exact_mod_cast lt_of_lt_of_le Nat.zero_lt_one (by exact_mod_cast this)
    rw [div_le_one hden]
    have hnum : (best_horizontal_shift prev cur w 32).2 ≤ max 1 (max prev.card cur.card) := by
      have h1 := best_overlap_le_min prev cur w 32
      have h2 : min prev.card cur.card ≤ max prev.card cur.card :=
        le_trans (min_le_left _ _) (le_max_left _ _)
      exact le_trans (le_trans h1 h2) (le_max_right _ _)
    exact_mod_cast hnum

/-- Ascending enumeration of a finite set of naturals.  Models Python's
`sorted(...)` applied to a set of pixel indices (or byte offsets): the result
is the unique strictly ascending list whose members are exactly the set. -/
def sortFinset (s : Finset ℕ) : List ℕ :=
  (List.range (s.sup id + 1)).filter (fun x => decide (x ∈ s))

lemma mem_sortFinset (s : Finset ℕ) (x : ℕ) : x ∈ sortFinset s ↔ x ∈ s := by
  unfold sortFinset
  rw [List.mem_filter, List.mem_range]
  constructor
  · intro h
    exact of_decide_eq_true h.2
  · intro h
    refine ⟨?_, decide_eq_true h⟩
    exact Nat.lt_succ_of_le (Finset.le_sup (f := id) h)

lemma sortFinset_toFinset (s : Finset ℕ) : (sortFinset s).toFinset = s := by
  ext x
  rw [List.mem_toFinset, mem_sortFinset]

/-- Translate every pixel of `s` horizontally by `d` columns, dropping pixels
whose new column falls outside `[0, w)`.  Models both the alignment loop
`x0 = x - dx` of emit_segments.py lines 89-96 (with `d = -dx`) and the base
re-projection `x2 = x + dx` of lines 121-127 (with `d = dx`). -/
def shiftX (s : Finset ℕ) (w : ℕ) (d : ℤ) : Finset ℕ :=
  (s.filter (fun i => 0 ≤ ((i % w : ℕ) : ℤ) + d ∧ ((i % w : ℕ) : ℤ) + d < (w : ℤ))).image
    (fun i => (i / w) * w + (((i % w : ℕ) : ℤ) + d).toNat)

/-- Per-frame alignment shift (emit_segments.py lines 82-87): frame 0 keeps
shift 0; frame `i ≥ 1` is aligned against the segment's reference frame
`frames[0]` with `max_shift = 64`. -/
def segShiftAt (frames : List (Finset ℕ)) (w : ℕ) (i : ℕ) : ℤ :=
  if i = 0 then 0 else (best_horizontal_shift (frames.headD ∅) (frames.getD i ∅) w 64).1

/-- The `shifts` list of a segment, one entry per frame. -/
def segShifts (frames : List (Finset ℕ)) (w : ℕ) : List ℤ :=
  (List.range frames.length).map (segShiftAt frames w)

/-- Frame `i` translated into the reference frame's coordinate space
(emit_segments.py lines 84-96; entry 0 is the reference itself). -/
def alignedAt (frames : List (Finset ℕ)) (w : ℕ) (i : ℕ) : Finset ℕ :=
  if i = 0 then frames.headD ∅
  else shiftX (frames.getD i ∅) w (-(segShiftAt frames w i))

def alignedList (frames : List (Finset ℕ)) (w : ℕ) : List (Finset ℕ) :=
  (List.range frames.length).map (alignedAt frames w)

/-- Consensus base set for an explicit integer threshold (emit_segments.py
lines 99-105): the keys of the `freq` dict are the union of the aligned sets
and a pixel is base when its frequency reaches the threshold. -/
def segBaseT (frames : List (Finset ℕ)) (w : ℕ) (threshold : ℕ) : Finset ℕ :=
  ((alignedList frames w).foldl (fun acc s => acc ∪ s) ∅).filter
    (fun idx => threshold ≤ (alignedList frames w).countP (fun s => decide (idx ∈ s)))

/-- The truncating threshold `int(base_frac * n)` of emit_segments.py line
104.  `base_frac * n` is nonnegative in every call, where Python's
truncation agrees with the floor. -/
def segBaseThreshold (base_frac : ℚ) (n : ℕ) : ℕ := (⌊base_frac * (n : ℚ)⌋).toNat

def segBase (frames : List (Finset ℕ)) (w : ℕ) (base_frac : ℚ) : Finset ℕ :=
  segBaseT frames w (segBaseThreshold base_frac frames.length)

/-- Byte-offset list `sorted([p * 4 for p in cur - shifted_base])` of frame
`i` (emit_segments.py line 129). -/
def addListAtT (frames : List (Finset ℕ)) (w threshold i : ℕ) : List ℕ :=
  sortFinset (((frames.getD i ∅) \
    shiftX (segBaseT frames w threshold) w (segShiftAt frames w i)).image (fun p => p * 4))

/-- Byte-offset list `sorted([p * 4 for p in shifted_base - cur])` of frame
`i` (emit_segments.py line 130). -/
def remListAtT (frames : List (Finset ℕ)) (w threshold i : ℕ) : List ℕ :=
  sortFinset ((shiftX (segBaseT frames w threshold) w (segShiftAt frames w i) \
    (frames.getD i ∅)).image (fun p => p * 4))

/-- CSR accumulation loop of emit_segments.py lines 111-136: per frame,
append the current data length to `index`, the list length to `count`, and
extend `data` with the list. -/
def csr (ls : List (List ℕ)) : List ℕ × List ℕ × List ℕ :=
  ls.foldl (fun acc l => (acc.1 ++ l, acc.2.1 ++ [acc.1.length], acc.2.2 ++ [l.length]))
    ([], [], [])

/-- The structured record emitted per segment (the `.DATA` blocks written by
emit_segments.py lines 225-256). -/
structure SegmentData where
  shifts : List ℤ
  basePixels : Finset ℕ
  baseOffsets : List ℕ
  additionsData : List ℕ
  additionsIndex : List ℕ
  additionsCount : List ℕ
  removalsData : List ℕ
  removalsIndex : List ℕ
  removalsCount : List ℕ
  deriving DecidableEq

/-- The per-segment computation of `emit_segment` (emit_segments.py lines
71-136) with the consensus threshold made explicit. -/
def emit_segmentT (frames : List (Finset ℕ)) (w threshold : ℕ) : SegmentData :=
  let adds := csr ((List.range frames.length).map (addListAtT frames w threshold))
  let rems := csr ((List.range frames.length).map (remListAtT frames w threshold))
  ⟨segShifts frames w, segBaseT frames w threshold,
   (sortFinset (segBaseT frames w threshold)).map (fun idx => idx * 4),
   adds.1, adds.2.1, adds.2.2, rems.1, rems.2.1, rems.2.2⟩

/-- Embedding of `emit_segment` (emit_segments.py lines 71-136): the
threshold is `int(base_frac * n)`. -/
def emit_segment (frames : List (Finset ℕ)) (w : ℕ) (base_frac : ℚ) : SegmentData :=
  emit_segmentT frames w (segBaseThreshold base_frac frames.length)

/-- The additions of frame `i` read back from the CSR tables as pixel
indices: the `count[i]`-long slice of `data` starting at `index[i]`, each
byte offset divided by 4. -/
def segAdditions (seg : SegmentData) (i : ℕ) : Finset ℕ :=
  (((seg.additionsData.drop (seg.additionsIndex.getD i 0)).take
      (seg.additionsCount.getD i 0)).map (fun b => b / 4)).toFinset

/-- The removals of frame `i` read back from the CSR tables as pixel
indices. -/
def segRemovals (seg : SegmentData) (i : ℕ) : Finset ℕ :=
  (((seg.removalsData.drop (seg.removalsIndex.getD i 0)).take
      (seg.removalsCount.getD i 0)).map (fun b => b / 4)).toFinset

lemma getD_map_range {α : Type} (f : ℕ → α) (n i : ℕ) (d : α) (h : i < n) :
    ((List.range n).map f).getD i d = f i := by
  rw [List.getD_eq_getElem?_getD, List.getElem?_map, List.getElem?_range h]
  rfl

lemma getD_map_length (ls : List (List ℕ)) :
    ∀ i, i < ls.length → (ls.map List.length).getD i 0 = (ls.getD i []).length := by
  induction ls with
  | nil =>
    intro i h
    exact absurd h (Nat.not_lt_zero i)
  | cons l t ih =>
    intro i h
    cases i with
    | zero => rfl
    | succ j =>
      rw [List.map_cons, List.getD_cons_succ, List.getD_cons_succ]
      exact ih j (Nat.lt_of_succ_lt_succ h)

lemma csr_go (step : List ℕ × List ℕ × List ℕ → List ℕ → List ℕ × List ℕ × List ℕ)
    (hstep : step = fun acc l => (acc.1 ++ l, acc.2.1 ++ [acc.1.length], acc.2.2 ++ [l.length])) :
    ∀ (ls : List (List ℕ)) (a b c : List ℕ),
      ls.foldl step (a, b, c) =
        (a ++ ls.flatten,
         b ++ (List.range ls.length).map
           (fun i => a.length + ((ls.take i).map List.length).sum),
         c ++ ls.map List.length) := by
  subst hstep
  intro ls
  induction ls with
  | nil =>
    intro a b c
    simp
  | cons l t ih =>
    intro a b c
    simp only [List.foldl_cons]
    rw [ih (a ++ l) (b ++ [a.length]) (c ++ [l.length])]
    simp only [Prod.mk.injEq]
    refine ⟨?_, ?_, ?_⟩
    · rw [List.flatten_cons, List.append_assoc]
    · rw [List.append_assoc]
      congr 1
      rw [List.length_cons, List.range_succ_eq_map, List.map_cons, List.map_map]
      simp only [List.take_zero, List.map_nil, List.sum_nil, Nat.add_zero, List.singleton_append]
      congr 1
      apply List.map_congr_left
      intro i _
      simp only [Function.comp_apply, List.take_succ_cons, List.map_cons, List.sum_cons,
        List.length_append]
      omega
    · rw [List.map_cons, List.append_assoc, List.singleton_append]

lemma csr_eq (ls : List (List ℕ)) :
    csr ls = (ls.flatten,
      (List.range ls.length).map (fun i => ((ls.take i).map List.length).sum),
      ls.map List.length) := by
  unfold csr
  rw [csr_go _ rfl ls [] [] []]
  simp

lemma flatten_slice (ls : List (List ℕ)) :
    ∀ i, i < ls.length →
      ((ls.flatten.drop (((ls.take i).map List.length).sum)).take (ls.getD i []).length)
        = ls.getD i [] := by
  induction ls with
  | nil =>
    intro i h
    exact absurd h (Nat.not_lt_zero i)
  | cons l t ih =>
    intro i h
    cases i with
    | zero =>
      simp only [List.take_zero, List.map_nil, List.sum_nil, List.drop_zero, List.getD_cons_zero,
        List.flatten_cons]
      exact List.take_left l t.flatten
    | succ j =>
      simp only [List.take_succ_cons, List.map_cons, List.sum_cons, List.getD_cons_succ,
        List.flatten_cons]
      rw [← List.drop_drop, List.drop_left]
      exact ih j (Nat.lt_of_succ_lt_succ h)

lemma csr_slice (ls : List (List ℕ)) (i : ℕ) (h : i < ls.length) :
    (((csr ls).1.drop ((csr ls).2.1.getD i 0)).take ((csr ls).2.2.getD i 0))
      = ls.getD i [] := by
  rw [csr_eq]
  simp only
  rw [getD_map_range _ _ _ _ h, getD_map_length ls i h]
  exact flatten_slice ls i h

lemma csr_sum_len (ls : List (List ℕ)) : (csr ls).2.2.sum = (csr ls).1.length := by
  rw [csr_eq]
  simp only
  rw [List.length_flatten]

lemma csr_idx_take (ls : List (List ℕ)) (i : ℕ) (h : i < ls.length) :
    (csr ls).2.1.getD i 0 = ((csr ls).2.2.take i).sum := by
  rw [csr_eq]
  simp only
  rw [getD_map_range _ _ _ _ h, List.map_take]

/-- C7: in every emitted segment, for each of the additions and removals
tables, the counts sum to the length of the concatenated data and
`index[i]` is the prefix sum of the counts before frame `i`. -/
theorem C7_csr_consistency (frames : List (Finset ℕ)) (w : ℕ) (bf : ℚ)
    (seg : SegmentData) (hseg : seg = emit_segment frames w bf) :
    seg.additionsCount.sum = seg.additionsData.length ∧
    seg.removalsCount.sum = seg.removalsData.length ∧
    (∀ i, i < frames.length →
      seg.additionsIndex.getD i 0 = (seg.additionsCount.take i).sum ∧
      seg.removalsIndex.getD i 0 = (seg.removalsCount.take i).sum) := by
  subst hseg
  refine ⟨?_, ?_, ?_⟩
  · exact csr_sum_len
      ((List.range frames.length).map (addListAtT frames w (segBaseThreshold bf frames.length)))
  · exact csr_sum_len
      ((List.range frames.length).map (remListAtT frames w (segBaseThreshold bf frames.length)))
  · intro i h
    have hlen : ∀ g : ℕ → List ℕ, i < ((List.range frames.length).map g).length := by
      intro g
      rw [List.length_map, List.length_range]
      exact h
    exact ⟨csr_idx_take _ i (hlen _), csr_idx_take _ i (hlen _)⟩

theorem C7_witness :
    (emit_segment [({0} : Finset ℕ)] 1 (9 / 10)).additionsIndex.getD 0 0 =
      ((emit_segment [({0} : Finset ℕ)] 1 (9 / 10)).additionsCount.take 0).sum ∧
    (emit_segment [({0} : Finset ℕ)] 1 (9 / 10)).removalsIndex.getD 0 0 =
      ((emit_segment [({0} : Finset ℕ)] 1 (9 / 10)).removalsCount.take 0).sum :=
  (C7_csr_consistency [{0}] 1 (9 / 10) _ rfl).2.2 0 (by decide)

lemma toFinset_map_list (l : List ℕ) (f : ℕ → ℕ) :
    (l.map f).toFinset = l.toFinset.image f := by
  ext a
  simp

lemma readBack (X : Finset ℕ) :
    ((sortFinset (X.image (fun p => p * 4))).map (fun b => b / 4)).toFinset = X := by
  rw [toFinset_map_list, sortFinset_toFinset, Finset.image_image]
  have hcomp : ((fun b => b / 4) ∘ (fun p => p * 4)) = id := by
    funext p
    simp only [Function.comp_apply, id_eq]
    omega
  rw [hcomp, Finset.image_id]

lemma union_sdiff_replay (sb cur : Finset ℕ) : (sb ∪ (cur \ sb)) \ (sb \ cur) = cur := by
  ext a
  simp only [Finset.mem_sdiff, Finset.mem_union]
  tauto

lemma csr_slice_toFinset (ls : List (List ℕ)) (i : ℕ) (h : i < ls.length) (X : Finset ℕ)
    (hX : ls.getD i [] = sortFinset (X.image (fun p => p * 4))) :
    ((((csr ls).1.drop ((csr ls).2.1.getD i 0)).take ((csr ls).2.2.getD i 0)).map
      (fun b => b / 4)).toFinset = X := by
  rw [csr_slice ls i h, hX, readBack]

/-- C1: replaying frame `i` of any emitted segment — the base set shifted by
`shifts[i]`, plus the additions of frame `i` read back from the CSR tables
as pixel indices, minus the removals read back likewise — reproduces the
frame's pixel set exactly. -/
theorem C1_delta_replay (frames : List (Finset ℕ)) (w : ℕ) (bf : ℚ) (i : ℕ)
    (hi : i < frames.length) (seg : SegmentData)
    (hseg : seg = emit_segment frames w bf) :
    (shiftX seg.basePixels w (seg.shifts.getD i 0) ∪ segAdditions seg i) \ segRemovals seg i
      = frames.getD i ∅ := by
  subst hseg
  have hbase : (emit_segment frames w bf).basePixels
      = segBaseT frames w (segBaseThreshold bf frames.length) := rfl
  have hshift : (emit_segment frames w bf).shifts.getD i 0 = segShiftAt frames w i := by
    show (segShifts frames w).getD i 0 = segShiftAt frames w i
    unfold segShifts
    exact getD_map_range _ _ _ _ hi
  have hilen : ∀ g : ℕ → List ℕ, i < ((List.range frames.length).map g).length := by
    intro g
    rw [List.length_map, List.length_range]
    exact hi
  have hA : segAdditions (emit_segment frames w bf) i
      = (frames.getD i ∅) \
        shiftX (segBaseT frames w (segBaseThreshold bf frames.length)) w
          (segShiftAt frames w i) := by
    refine csr_slice_toFinset _ i (hilen _) _ ?_
    rw [getD_map_range _ _ _ _ hi]
    rfl
  have hR : segRemovals (emit_segment frames w bf) i
      = shiftX (segBaseT frames w (segBaseThreshold bf frames.length)) w
          (segShiftAt frames w i) \ (frames.getD i ∅) := by
    refine csr_slice_toFinset _ i (hilen _) _ ?_
    rw [getD_map_range _ _ _ _ hi]
    rfl
  rw [hbase, hshift, hA, hR]
  exact union_sdiff_replay _ _

theorem C1_witness :
    (shiftX (emit_segment [(∅ : Finset ℕ)] 1 (9 / 10)).basePixels 1
        ((emit_segment [(∅ : Finset ℕ)] 1 (9 / 10)).shifts.getD 0 0) ∪
      segAdditions (emit_segment [(∅ : Finset ℕ)] 1 (9 / 10)) 0) \
      segRemovals (emit_segment [(∅ : Finset ℕ)] 1 (9 / 10)) 0
      = [(∅ : Finset ℕ)].getD 0 ∅ :=
  C1_delta_replay [∅] 1 (9 / 10) 0 (by decide) _ rfl

set_option maxRecDepth 1000000 in
/-- C9: a segment of 10 identical copies of the concrete 4-wide frame
`{1, 2}` encoded at `base_frac = 0.9` gets shift 0 for every frame, a
consensus base containing every reference pixel, and empty additions and
removals for every frame. -/
theorem C9_static_segment (seg : SegmentData)
    (hseg : seg = emit_segment (List.replicate 10 ({1, 2} : Finset ℕ)) 4 (9 / 10)) :
    seg.shifts = List.replicate 10 0 ∧
    ({1, 2} : Finset ℕ) ⊆ seg.basePixels ∧
    seg.additionsData = [] ∧ seg.removalsData = [] ∧
    seg.additionsCount = List.replicate 10 0 ∧
    seg.removalsCount = List.replicate 10 0 := by
  have hthr : segBaseThreshold (9 / 10 : ℚ) (List.replicate 10 ({1, 2} : Finset ℕ)).length
      = 9 := by
    have h1 : (⌊(9 / 10 : ℚ) * ((10 : ℕ) : ℚ)⌋) = 9 := by norm_num
    unfold segBaseThreshold
    rw [List.length_replicate, h1]
    rfl
  rw [hseg]
  unfold emit_segment
  rw [hthr]
  decide

theorem C9_witness : (0 : ℕ) < 10 ∧
    (emit_segment (List.replicate 10 ({1, 2} : Finset ℕ)) 4 (9 / 10)).additionsData = [] :=
  ⟨by decide, (C9_static_segment _ rfl).2.2.1⟩

/-- Body of the packing loop of `pack_frame` (emit_bitpacked.py lines 33-37):
if pixel `i` is on, OR the bit at MSB-first position `7 - (i % 8)` into byte
`i // 8`. -/
def packStep (bitset : Finset ℕ) (out : List ℕ) (i : ℕ) : List ℕ :=
  if i ∈ bitset then
    out.set (i / 8) ((out.getD (i / 8) 0) ||| (1 <<< (7 - i % 8)))
  else out

/-- Embedding of `pack_frame` (emit_bitpacked.py lines 30-38): a zeroed
buffer of `(w*h + 7) // 8` bytes (the ceiling of `w*h / 8`), filled by the
loop over all pixel indices. -/
def pack_frame (bitset : Finset ℕ) (w h : ℕ) : List ℕ :=
  (List.range (w * h)).foldl (packStep bitset) (List.replicate ((w * h + 7) / 8) 0)

/-- The playback unpacking contract stated by the spec for the bitpacked
record: pixel `i` is on iff bit position `7 - (i % 8)` of byte `i // 8` is
set (MSB-first). -/
def unpack_set (buf : List ℕ) (w h : ℕ) : Finset ℕ :=
  (Finset.range (w * h)).filter (fun i => (buf.getD (i / 8) 0).testBit (7 - i % 8))

lemma packStep_length (bitset : Finset ℕ) (out : List ℕ) (i : ℕ) :
    (packStep bitset out i).length = out.length := by
  unfold packStep
  split
  · exact List.length_set out _ _
  · rfl

lemma foldl_packStep_length (bitset : Finset ℕ) :
    ∀ (l : List ℕ) (out : List ℕ), (l.foldl (packStep bitset) out).length = out.length := by
  intro l
  induction l with
  | nil => intro out; rfl
  | cons i t ih =>
    intro out
    simp only [List.foldl_cons]
    rw [ih (packStep bitset out i), packStep_length]

lemma getD_set_self (l : List ℕ) (k v d : ℕ) (h : k < l.length) :
    (l.set k v).getD k d = v := by
  rw [List.getD_eq_getElem?_getD, List.getElem?_set_self h]
  rfl

lemma getD_set_ne (l : List ℕ) (k j v d : ℕ) (h : k ≠ j) :
    (l.set k v).getD j d = l.getD j d := by
  rw [List.getD_eq_getElem?_getD, List.getElem?_set_ne h, ← List.getD_eq_getElem?_getD]

lemma getD_replicate_zero (n j : ℕ) : (List.replicate n (0 : ℕ)).getD j 0 = 0 := by
  rw [List.getD_eq_getElem?_getD, List.getElem?_replicate]
  split <;> rfl

lemma foldl_packStep_testBit (bitset : Finset ℕ) :
    ∀ (l : List ℕ) (out : List ℕ), (∀ i ∈ l, i / 8 < out.length) → ∀ (j b : ℕ),
      (((l.foldl (packStep bitset) out).getD j 0).testBit b = true ↔
        ((out.getD j 0).testBit b = true ∨
          ∃ i ∈ l, i ∈ bitset ∧ i / 8 = j ∧ b = 7 - i % 8)) := by
  intro l
  induction l with
  | nil =>
    intro out _ j b
    simp
  | cons i t ih =>
    intro out hlen j b
    have hi8 : i / 8 < out.length := hlen i (List.mem_cons_self i t)
    have hlen2 : ∀ x ∈ t, x / 8 < (packStep bitset out i).length := by
      intro x hx
      rw [packStep_length]
      exact hlen x (List.mem_cons_of_mem i hx)
    simp only [List.foldl_cons]
    rw [ih (packStep bitset out i) hlen2 j b]
    by_cases hmem : i ∈ bitset
    · have hstep : packStep bitset out i
          = out.set (i / 8) ((out.getD (i / 8) 0) ||| (1 <<< (7 - i % 8))) := by
        unfold packStep
        rw [if_pos hmem]
      rw [hstep]
      by_cases hj : i / 8 = j
      · subst hj
        rw [getD_set_self _ _ _ _ hi8, Nat.testBit_lor, Nat.one_shiftLeft,
          Nat.testBit_two_pow]
        constructor
        · intro hc
          rcases hc with hc | hc
          · rcases Bool.or_eq_true_iff.mp hc with hc2 | hc2
            · exact Or.inl hc2
            · exact Or.inr ⟨i, List.mem_cons_self i t, hmem, rfl, (of_decide_eq_true hc2).symm⟩
          · rcases hc with ⟨x, hx, hx2, hx3, hx4⟩
            exact Or.inr ⟨x, List.mem_cons_of_mem i hx, hx2, hx3, hx4⟩
        · intro hc
          rcases hc with hc | hc
          · exact Or.inl (Bool.or_eq_true_iff.mpr (Or.inl hc))
          · rcases hc with ⟨x, hx, hx2, hx3, hx4⟩
            rcases List.mem_cons.mp hx with rfl | hx5
            · exact Or.inl (Bool.or_eq_true_iff.mpr (Or.inr (decide_eq_true hx4.symm)))
            · exact Or.inr ⟨x, hx5, hx2, hx3, hx4⟩
      · rw [getD_set_ne _ _ _ _ _ hj]
        constructor
        · intro hc
          rcases hc with hc | hc
          · exact Or.inl hc
          · rcases hc with ⟨x, hx, hx2, hx3, hx4⟩
            exact Or.inr ⟨x, List.mem_cons_of_mem i hx, hx2, hx3, hx4⟩
        · intro hc
          rcases hc with hc | hc
          · exact Or.inl hc
          · rcases hc with ⟨x, hx, hx2, hx3, hx4⟩
            rcases List.mem_cons.mp hx with rfl | hx5
            · exact absurd hx3 hj
            · exact Or.inr ⟨x, hx5, hx2, hx3, hx4⟩
    · have hstep : packStep bitset out i = out := by
        unfold packStep
        rw [if_neg hmem]
      rw [hstep]
      constructor
      · intro hc
        rcases hc with hc | hc
        · exact Or.inl hc
        · rcases hc with ⟨x, hx, hx2, hx3, hx4⟩
          exact Or.inr ⟨x, List.mem_cons_of_mem i hx, hx2, hx3, hx4⟩
      · intro hc
        rcases hc with hc | hc
        · exact Or.inl hc
        · rcases hc with ⟨x, hx, hx2, hx3, hx4⟩
          rcases List.mem_cons.mp hx with rfl | hx5
          · exact absurd hx2 hmem
          · exact Or.inr ⟨x, hx5, hx2, hx3, hx4⟩

/-- C6: for every frame pixel set whose indices all lie in `[0, w*h)`,
`pack_frame` produces a buffer of exactly `(w*h + 7) // 8` bytes (the
ceiling of `w*h / 8`), and unpacking it — testing bit `7 - (i % 8)` of byte
`i // 8` for each pixel `i`, MSB-first — yields exactly the original
on-pixel set. -/
theorem C6_bitpack_roundtrip (bitset : Finset ℕ) (w h : ℕ)
    (hsub : bitset ⊆ Finset.range (w * h)) :
    (pack_frame bitset w h).length = (w * h + 7) / 8 ∧
    unpack_set (pack_frame bitset w h) w h = bitset := by
  have hlen : ∀ i ∈ List.range (w * h),
      i / 8 < (List.replicate ((w * h + 7) / 8) (0 : ℕ)).length := by
    intro i hi
    rw [List.mem_range] at hi
    rw [List.length_replicate]
    omega
  constructor
  · unfold pack_frame
    rw [foldl_packStep_length]
    exact List.length_replicate _ _
  · ext p
    unfold unpack_set
    rw [Finset.mem_filter, Finset.mem_range]
    constructor
    · intro hc
      have htb := (foldl_packStep_testBit bitset (List.range (w * h)) _ hlen
        (p / 8) (7 - p % 8)).mp hc.2
      rcases htb with htb | htb
      · rw [getD_replicate_zero, Nat.zero_testBit] at htb
        exact absurd htb (by simp)
      · rcases htb with ⟨x, _, hx2, hx3, hx4⟩
        have hxp : x = p := by omega
        rw [← hxp]
        exact hx2
    · intro hp
      have hplt : p < w * h := Finset.mem_range.mp (hsub hp)
      refine ⟨hplt, ?_⟩
      exact (foldl_packStep_testBit bitset (List.range (w * h)) _ hlen
        (p / 8) (7 - p % 8)).mpr
        (Or.inr ⟨p, List.mem_range.mpr hplt, hp, rfl, rfl⟩)

theorem C6_witness :
    ({0, 3, 9} : Finset ℕ) ⊆ Finset.range (4 * 3) ∧
    (pack_frame {0, 3, 9} 4 3).length = (4 * 3 + 7) / 8 ∧
    unpack_set (pack_frame {0, 3, 9} 4 3) 4 3 = {0, 3, 9} :=
  ⟨by decide, C6_bitpack_roundtrip {0, 3, 9} 4 3 (by decide)⟩

/-- Length of the maximal leading run of pixels strictly below the
threshold: the inner `while x < w and pix[x, y] < threshold` loop of
process_frames.py lines 41-42. -/
def takeBlackLen (t : ℕ) : List ℕ → ℕ
  | [] => 0
  | p :: rest => if p < t then takeBlackLen t rest + 1 else 0

/-- Row scan of `mask_rle_from_image` (process_frames.py lines 32-45):
starting at column `x0`, skip pixels at or above the threshold, then emit a
`(start, length)` pair for each maximal run of pixels below it and resume
after the run. -/
def rowRuns (t : ℕ) : List ℕ → ℕ → List (ℕ × ℕ)
  | [], _ => []
  | p :: rest, x =>
    if p < t then
      (x, takeBlackLen t (p :: rest)) ::
        rowRuns t (rest.drop (takeBlackLen t (p :: rest) - 1)) (x + takeBlackLen t (p :: rest))
    else rowRuns t rest (x + 1)
termination_by l _ => l.length
decreasing_by
  all_goals simp only [List.length_drop, List.length_cons]
  all_goals omega

/-- Embedding of `mask_rle_from_image` (process_frames.py lines 25-47): the
per-row run lists of a raster given as a list of rows of luminance
values. -/
def mask_rle_from_image (raster : List (List ℕ)) (t : ℕ) : List (List (ℕ × ℕ)) :=
  raster.map (fun row => rowRuns t row 0)

/-- Embedding of `load_rle` (analyze_masks.py lines 16-27; identical copies
exist in emit_segments.py lines 29-40 and emit_bitpacked.py lines 17-27):
expand every run of every row into the linear indices `y * w + x`. -/
def load_rle (w : ℕ) (rows : List (List (ℕ × ℕ))) : Finset ℕ :=
  rows.enum.foldl (fun s yr =>
    yr.2.foldl (fun s2 r => s2 ∪ (Finset.Ico r.1 (r.1 + r.2)).image (fun x => yr.1 * w + x)) s)
    ∅

lemma takeBlackLen_le (t : ℕ) : ∀ l : List ℕ, takeBlackLen t l ≤ l.length := by
  intro l
  induction l with
  | nil => simp [takeBlackLen]
  | cons p rest ih =>
    simp only [takeBlackLen, List.length_cons]
    split
    · omega
    · omega

lemma takeBlackLen_lt (t : ℕ) : ∀ (l : List ℕ) (i : ℕ), i < takeBlackLen t l →
    l.getD i 0 < t := by
  intro l
  induction l with
  | nil => intro i h; simp [takeBlackLen] at h
  | cons p rest ih =>
    intro i h
    simp only [takeBlackLen] at h
    by_cases hp : p < t
    · rw [if_pos hp] at h
      cases i with
      | zero => exact hp
      | succ j =>
        rw [List.getD_cons_succ]
        exact ih j (by omega)
    · rw [if_neg hp] at h
      exact absurd h (Nat.not_lt_zero i)

lemma takeBlackLen_cons_pos (t p : ℕ) (rest : List ℕ) (h : p < t) :
    takeBlackLen t (p :: rest) = takeBlackLen t rest + 1 := by
  simp only [takeBlackLen]
  rw [if_pos h]

lemma getD_drop (l : List ℕ) : ∀ (n i : ℕ), (l.drop n).getD i 0 = l.getD (n + i) 0 := by
  induction l with
  | nil =>
    intro n i
    rw [List.drop_nil]
    rfl
  | cons a l ih =>
    intro n i
    cases n with
    | zero =>
      rw [List.drop_zero, Nat.zero_add]
    | succ m =>
      rw [List.drop_succ_cons, ih m i]
      have harith : m + 1 + i = (m + i) + 1 := by omega
      rw [harith, List.getD_cons_succ]

/-- Membership characterization of the row scan: a column `c` is covered by
some emitted run exactly when it indexes a pixel below the threshold. -/
lemma mem_rowRuns (t : ℕ) : ∀ (n : ℕ) (row : List ℕ), row.length ≤ n → ∀ (x0 c : ℕ),
    ((∃ r ∈ rowRuns t row x0, r.1 ≤ c ∧ c < r.1 + r.2) ↔
      ∃ i, i < row.length ∧ c = x0 + i ∧ row.getD i 0 < t) := by
  intro n
  induction n with
  | zero =>
    intro row hlen x0 c
    have hrow : row = [] := List.length_eq_zero.mp (Nat.le_zero.mp hlen)
    subst hrow
    simp [rowRuns]
  | succ m ih =>
    intro row hlen x0 c
    cases row with
    | nil => simp [rowRuns]
    | cons p rest =>
      by_cases hp : p < t
      · have hlen1 : takeBlackLen t (p :: rest) = takeBlackLen t rest + 1 :=
          takeBlackLen_cons_pos t p rest hp
        have htb : takeBlackLen t rest ≤ rest.length := takeBlackLen_le t rest
        have heq : rowRuns t (p :: rest) x0 =
            (x0, takeBlackLen t (p :: rest)) ::
              rowRuns t (rest.drop (takeBlackLen t (p :: rest) - 1))
                (x0 + takeBlackLen t (p :: rest)) := by
          simp only [rowRuns]
          rw [if_pos hp]
        rw [heq]
        have hdlen : (rest.drop (takeBlackLen t (p :: rest) - 1)).length ≤ m := by
          rw [List.length_drop]
          simp only [List.length_cons] at hlen
          omega
        constructor
        · intro hc
          rcases hc with ⟨r, hr, hr1, hr2⟩
          rcases List.mem_cons.mp hr with rfl | hr3
          · refine ⟨c - x0, ?_, by omega, ?_⟩
            · have := takeBlackLen_le t (p :: rest)
              simp only [List.length_cons] at this ⊢
              omega
            · exact takeBlackLen_lt t (p :: rest) (c - x0) (by omega)
          · have hrec := (ih (rest.drop (takeBlackLen t (p :: rest) - 1)) hdlen
              (x0 + takeBlackLen t (p :: rest)) c).mp ⟨r, hr3, hr1, hr2⟩
            rcases hrec with ⟨i2, hi2, hc2, hg2⟩
            refine ⟨takeBlackLen t (p :: rest) + i2, ?_, by omega, ?_⟩
            · rw [List.length_drop] at hi2
              simp only [List.length_cons]
              omega
            · rw [getD_drop] at hg2
              have harith : takeBlackLen t (p :: rest) - 1 + i2 + 1
                  = takeBlackLen t (p :: rest) + i2 := by omega
              rw [← harith, List.getD_cons_succ]
              exact hg2
        · intro hc
          rcases hc with ⟨i, hi, hc1, hg⟩
          by_cases hsmall : i < takeBlackLen t (p :: rest)
          · exact ⟨(x0, takeBlackLen t (p :: rest)), List.mem_cons_self _ _, by omega, by omega⟩
          · have hrec := (ih (rest.drop (takeBlackLen t (p :: rest) - 1)) hdlen
              (x0 + takeBlackLen t (p :: rest)) c).mpr ?_
            · rcases hrec with ⟨r, hr, hr1, hr2⟩
              exact ⟨r, List.mem_cons_of_mem _ hr, hr1, hr2⟩
            · refine ⟨i - takeBlackLen t (p :: rest), ?_, by omega, ?_⟩
              · rw [List.length_drop]
                simp only [List.length_cons] at hi
                omega
              · rw [getD_drop]
                have harith : takeBlackLen t (p :: rest) - 1 +
                    (i - takeBlackLen t (p :: rest)) + 1 = i := by omega
                cases i with
                | zero => omega
                | succ j =>
                  rw [List.getD_cons_succ] at hg
                  have harith2 : takeBlackLen t (p :: rest) - 1 +
                      (j + 1 - takeBlackLen t (p :: rest)) = j := by omega
                  rw [harith2]
                  exact hg
      · have heq : rowRuns t (p :: rest) x0 = rowRuns t rest (x0 + 1) := by
          simp only [rowRuns]
          rw [if_neg hp]
        rw [heq]
        have hlen2 : rest.length ≤ m := by
          simp only [List.length_cons] at hlen
          omega
        rw [ih rest hlen2 (x0 + 1) c]
        constructor
        · intro hc
          rcases hc with ⟨i, hi, hc1, hg⟩
          exact ⟨i + 1, by simpa using Nat.succ_lt_succ hi, by omega,
            by rw [List.getD_cons_succ]; exact hg⟩
        · intro hc
          rcases hc with ⟨i, hi, hc1, hg⟩
          cases i with
          | zero => exact absurd hg hp
          | succ j =>
            rw [List.getD_cons_succ] at hg
            exact ⟨j, by simp only [List.length_cons] at hi; omega, by omega, hg⟩

lemma mem_foldl_runs (w y : ℕ) : ∀ (runs : List (ℕ × ℕ)) (s : Finset ℕ) (a : ℕ),
    (a ∈ runs.foldl
        (fun s2 r => s2 ∪ (Finset.Ico r.1 (r.1 + r.2)).image (fun x => y * w + x)) s ↔
      a ∈ s ∨ ∃ r ∈ runs, ∃ x, r.1 ≤ x ∧ x < r.1 + r.2 ∧ a = y * w + x) := by
  intro runs
  induction runs with
  | nil =>
    intro s a
    simp
  | cons r rt ih =>
    intro s a
    simp only [List.foldl_cons]
    rw [ih]
    constructor
    · intro hc
      rcases hc with hc | hc
      · rcases Finset.mem_union.mp hc with hc2 | hc2
        · exact Or.inl hc2
        · rcases Finset.mem_image.mp hc2 with ⟨x, hx, hax⟩
          rcases Finset.mem_Ico.mp hx with ⟨hx1, hx2⟩
          exact Or.inr ⟨r, List.mem_cons_self r rt, x, hx1, hx2, hax.symm⟩
      · rcases hc with ⟨r2, hr2, x, hx1, hx2, hax⟩
        exact Or.inr ⟨r2, List.mem_cons_of_mem r hr2, x, hx1, hx2, hax⟩
    · intro hc
      rcases hc with hc | hc
      · exact Or.inl (Finset.mem_union.mpr (Or.inl hc))
      · rcases hc with ⟨r2, hr2, x, hx1, hx2, hax⟩
        rcases List.mem_cons.mp hr2 with rfl | hr3
        · refine Or.inl (Finset.mem_union.mpr (Or.inr ?_))
          exact Finset.mem_image.mpr ⟨x, Finset.mem_Ico.mpr ⟨hx1, hx2⟩, hax.symm⟩
        · exact Or.inr ⟨r2, hr3, x, hx1, hx2, hax⟩

lemma mem_load_rle_from (w : ℕ) : ∀ (rows : List (List (ℕ × ℕ))) (k : ℕ) (s : Finset ℕ)
    (a : ℕ),
    (a ∈ (List.enumFrom k rows).foldl
        (fun s yr => yr.2.foldl
          (fun s2 r => s2 ∪ (Finset.Ico r.1 (r.1 + r.2)).image (fun x => yr.1 * w + x)) s)
        s ↔
      a ∈ s ∨ ∃ j, j < rows.length ∧ ∃ r ∈ rows.getD j [], ∃ x,
        r.1 ≤ x ∧ x < r.1 + r.2 ∧ a = (k + j) * w + x) := by
  intro rows
  induction rows with
  | nil =>
    intro k s a
    simp
  | cons rr rt ih =>
    intro k s a
    rw [List.enumFrom_cons]
    simp only [List.foldl_cons]
    rw [ih (k + 1) _ a, mem_foldl_runs w k rr s a]
    constructor
    · intro hc
      rcases hc with (hc | hc) | hc
      · exact Or.inl hc
      · rcases hc with ⟨r, hr, x, hx1, hx2, hax⟩
        refine Or.inr ⟨0, by simp, r, by rw [List.getD_cons_zero]; exact hr, x, hx1, hx2, ?_⟩
        rw [Nat.add_zero]
        exact hax
      · rcases hc with ⟨j, hj, r, hr, x, hx1, hx2, hax⟩
        refine Or.inr ⟨j + 1, by simp only [List.length_cons]; omega, r,
          by rw [List.getD_cons_succ]; exact hr, x, hx1, hx2, ?_⟩
        have harith : k + (j + 1) = k + 1 + j := by omega
        rw [harith]
        exact hax
    · intro hc
      rcases hc with hc | hc
      · exact Or.inl (Or.inl hc)
      · rcases hc with ⟨j, hj, r, hr, x, hx1, hx2, hax⟩
        cases j with
        | zero =>
          rw [List.getD_cons_zero] at hr
          rw [Nat.add_zero] at hax
          exact Or.inl (Or.inr ⟨r, hr, x, hx1, hx2, hax⟩)
        | succ j2 =>
          rw [List.getD_cons_succ] at hr
          refine Or.inr ⟨j2, by simp only [List.length_cons] at hj; omega, r, hr, x,
            hx1, hx2, ?_⟩
          have harith : k + 1 + j2 = k + (j2 + 1) := by omega
          rw [harith]
          exact hax

lemma getD_mem_of_lt {α : Type} (l : List α) (j : ℕ) (d : α) (h : j < l.length) :
    l.getD j d ∈ l := by
  rw [List.getD_eq_getElem?_getD, List.getElem?_eq_getElem h, Option.getD_some]
  exact List.getElem_mem h

lemma getD_map_rowRuns (t : ℕ) (raster : List (List ℕ)) :
    ∀ j, j < raster.length →
      (raster.map (fun row => rowRuns t row 0)).getD j [] = rowRuns t (raster.getD j []) 0 := by
  induction raster with
  | nil =>
    intro j h
    exact absurd h (Nat.not_lt_zero j)
  | cons row rt ih =>
    intro j h
    cases j with
    | zero => rfl
    | succ j2 =>
      rw [List.map_cons, List.getD_cons_succ, List.getD_cons_succ]
      exact ih j2 (by simp only [List.length_cons] at h; omega)

/-- C5: for every raster (list of rows of luminance values, all of width
`w`) and every threshold, decoding the RLE produced by the encoder yields
exactly the linear indices `y * w + x` of the pixels whose luminance is
strictly below the threshold. -/
theorem C5_rle_roundtrip (raster : List (List ℕ)) (w t : ℕ)
    (hw : ∀ row ∈ raster, row.length = w) (idx : ℕ) :
    (idx ∈ load_rle w (mask_rle_from_image raster t) ↔
      ∃ y x, y < raster.length ∧ x < w ∧ idx = y * w + x ∧
        (raster.getD y []).getD x 0 < t) := by
  unfold load_rle mask_rle_from_image
  rw [List.enum_eq_enumFrom, mem_load_rle_from]
  simp only [Finset.not_mem_empty, false_or, List.length_map]
  constructor
  · intro hc
    rcases hc with ⟨j, hj, r, hr, x, hx1, hx2, hax⟩
    rw [getD_map_rowRuns t raster j hj] at hr
    have hrow := (mem_rowRuns t (raster.getD j []).length (raster.getD j []) (le_refl _)
      0 x).mp ⟨r, hr, hx1, hx2⟩
    rcases hrow with ⟨i, hi, hxi, hg⟩
    rw [Nat.zero_add] at hxi
    subst hxi
    have hrl : (raster.getD j []).length = w := by
      apply hw
      exact getD_mem_of_lt raster j [] (by omega)
    refine ⟨j, x, hj, ?_, ?_, hg⟩
    · rw [← hrl]
      exact hi
    · rw [Nat.zero_add] at hax
      exact hax
  · intro hc
    rcases hc with ⟨y, x, hy, hx, hidx, hg⟩
    have hrl : (raster.getD y []).length = w := by
      apply hw
      exact getD_mem_of_lt raster y [] (by omega)
    have hrow := (mem_rowRuns t (raster.getD y []).length (raster.getD y []) (le_refl _)
      0 x).mpr ⟨x, by omega, by omega, hg⟩
    rcases hrow with ⟨r, hr, hr1, hr2⟩
    refine ⟨y, hy, r, ?_, x, hr1, hr2, by rw [Nat.zero_add]; exact hidx⟩
    rw [getD_map_rowRuns t raster y hy]
    exact hr

theorem C5_witness :
    (∀ row ∈ [[200, 10, 10, 200], [10, 200, 200, 10]], List.length row = 4) ∧
    (5 ∈ load_rle 4 (mask_rle_from_image [[200, 10, 10, 200], [10, 200, 200, 10]] 128) ↔
      ∃ y x, y < 2 ∧ x < 4 ∧ 5 = y * 4 + x ∧
        (List.getD [[200, 10, 10, 200], [10, 200, 200, 10]] y []).getD x 0 < 128) := by
  refine ⟨by decide, ?_⟩
  have h := C5_rle_roundtrip [[200, 10, 10, 200], [10, 200, 200, 10]] 4 128 (by decide) 5
  simpa using h

/-- Denominator of `avg_black` (analyze_masks.py line 101): the plain frame
count `n`, with no guard. -/
def avg_black_den (n : ℕ) : ℕ := n

/-- Denominator of `avg_diff` (analyze_masks.py line 102): `max(1, n-1)`. -/
def avg_diff_den (n : ℕ) : ℕ := max 1 (n - 1)

/-- Denominator of `shift_match_percent` (analyze_masks.py line 103):
`max(1, n-1)`. -/
def shift_match_den (n : ℕ) : ℕ := max 1 (n - 1)

/-- The summary computation of `analyze_masks` (analyze_masks.py lines
61-106): `none` models the early `return 1` on empty input (line 64-66);
otherwise the triple `(avg_black, avg_diff, shift_match_percent)` is
computed over the per-frame statistics loop (consecutive frames are paired
by zipping the list with its tail, `diff` is the symmetric difference
cardinality, and a pair matches when its `overlap_frac` reaches 0.7).
Python float arithmetic is modelled in `ℚ`. -/
def analyze_masks_summary (frames : List (Finset ℕ)) (w : ℕ) : Option (ℚ × ℚ × ℚ) :=
  if frames.isEmpty then none
  else
    let n := frames.length
    let total_black := (frames.map Finset.card).sum
    let pairs := frames.zip frames.tail
    let total_diff := (pairs.map (fun pr => ((pr.1 \ pr.2) ∪ (pr.2 \ pr.1)).card)).sum
    let shift_matches :=
      pairs.countP (fun pr => decide ((7 / 10 : ℚ) ≤ overlap_frac pr.1 pr.2 w))
    some ((total_black : ℚ) / (avg_black_den n : ℚ),
      (total_diff : ℚ) / (avg_diff_den n : ℚ),
      (100 * (shift_matches : ℚ)) / (shift_match_den n : ℚ))

/-- C8 counterexample: the denominator of `avg_black` is the bare frame
count, not guarded with a floor of 1 — at `n = 0` it is 0. -/
theorem C8_counterexample : avg_black_den 0 = 0 ∧ ¬ (1 ≤ avg_black_den 0) := by decide

/-- C8 amended: `avg_diff` and `shift_match_percent` guard their denominator
with a floor of 1 for every frame count; `avg_black` divides by the bare
frame count `n`, but the analyzer bails out before computing any summary
when there are zero frames, so every computed summary has `n ≥ 1` and no
division by zero occurs. -/
theorem C8_amended :
    (∀ n : ℕ, 1 ≤ avg_diff_den n) ∧
    (∀ n : ℕ, 1 ≤ shift_match_den n) ∧
    (∀ (frames : List (Finset ℕ)) (w : ℕ),
      (analyze_masks_summary frames w).isSome → 1 ≤ avg_black_den frames.length) ∧
    (∀ w : ℕ, analyze_masks_summary ([] : List (Finset ℕ)) w = none) := by
  refine ⟨?_, ?_, ?_, ?_⟩
  · intro n
    exact le_max_left _ _
  · intro n
    exact le_max_left _ _
  · intro frames w h
    cases frames with
    | nil => exact absurd h (by simp [analyze_masks_summary])
    | cons f fs =>
      unfold avg_black_den
      simp
  · intro w
    rfl

theorem C8_witness :
    1 ≤ avg_diff_den 0 ∧ 1 ≤ shift_match_den 0 ∧ 1 ≤ avg_black_den 1 :=
  ⟨C8_amended.1 0, C8_amended.2.1 0, C8_amended.2.2.1 [{0}] 1 (by rfl)⟩

end BadApple
